import Mathlib

/-!
A shallow embedding of the `shinobu8-core` CHIP-8 interpreter
(`src/shinobu8-core/src/lib.rs`) and proofs about its instruction semantics.

Modelling conventions:
* Machine integers (`u8`, `u16`) become `Nat` with explicit `% 256` / `% 65536`
  at the points where the Rust code wraps (release-mode semantics).
* The fixed-size arrays (`[u8; 4096]` RAM, `[u8; 16]` registers, `[u16; 16]`
  stack, `[bool; 16]` keys, `[bool; 2048]` display) become total functions
  `Nat → Nat` / `Nat → Bool`; theorems carry the in-bounds hypotheses that the
  real executions satisfy (an out-of-bounds index panics in Rust).
* `anyhow::Result` becomes `Except EmuError`.  The busy-wait loop of opcode
  `Fx0A` can fail to terminate, so the executor returns
  `Option (Except EmuError Emu)`, with `none` standing for divergence; the
  fuel-indexed `waitLoop` justifies this reading.
* `rand::random::<u8>()` (opcode `Cxkk`) is modelled by an ambient stream of
  bytes `rng` together with a cursor `rngIdx` in the machine state.
* The `Mutex`-guarded step counter and quit flag are plain fields `steps` and
  `quit`; `run` is modelled by the fuel-indexed `runFuel`.
-/

/-- The error produced by `Emu::execute` for an unrecognized instruction
(`anyhow::anyhow!("Unknown instruction: {:?}", ins)`); it carries the raw
16-bit instruction word. -/
inductive EmuError where
  | unknownInstruction : Nat → EmuError
deriving DecidableEq

/-- A raw 16-bit CHIP-8 instruction word (`pub struct Instruction(u16)`). -/
structure Instruction where
  w : Nat

/-- The nibble decomposition `(a, b, c, d)` of an instruction word,
from most- to least-significant (`Instruction::decode`). -/
def Instruction.decode (ins : Instruction) : Nat × Nat × Nat × Nat :=
  ((ins.w &&& 0xF000) >>> 12,
   (ins.w &&& 0x0F00) >>> 8,
   (ins.w &&& 0x00F0) >>> 4,
   ins.w &&& 0x000F)

/-- The 12-bit address operand (`Instruction::nnn`). -/
def Instruction.nnn (ins : Instruction) : Nat := ins.w &&& 0x0FFF

/-- The 8-bit immediate operand (`Instruction::kk`). -/
def Instruction.kk (ins : Instruction) : Nat := ins.w &&& 0x00FF

/-- The 80-byte built-in hexadecimal glyph font (`FONT_SET`). -/
def FONT_SET : List Nat :=
  [0xF0, 0x90, 0x90, 0x90, 0xF0,
   0x20, 0x60, 0x20, 0x20, 0x70,
   0xF0, 0x10, 0xF0, 0x80, 0xF0,
   0xF0, 0x10, 0xF0, 0x10, 0xF0,
   0x90, 0x90, 0xF0, 0x10, 0x10,
   0xF0, 0x80, 0xF0, 0x10, 0xF0,
   0xF0, 0x80, 0xF0, 0x90, 0xF0,
   0xF0, 0x10, 0x20, 0x40, 0x40,
   0xF0, 0x90, 0xF0, 0x90, 0xF0,
   0xF0, 0x90, 0xF0, 0x10, 0xF0,
   0xF0, 0x90, 0xF0, 0x90, 0x90,
   0xE0, 0x90, 0xE0, 0x90, 0xE0,
   0xF0, 0x80, 0x80, 0x80, 0xF0,
   0xE0, 0x90, 0x90, 0x90, 0xE0,
   0xF0, 0x80, 0xF0, 0x80, 0xF0,
   0xF0, 0x80, 0xF0, 0x80, 0x80]

/-- The program entry address (`START_ADDR`). -/
def START_ADDR : Nat := 0x200

/-- A block write into the byte store: `m[start..start+bytes.len()] = bytes`
(one `copy_from_slice` call in `Ram::load`). -/
def writeRange (m : Nat → Nat) (start : Nat) (bytes : List Nat) : Nat → Nat :=
  fun a => if start ≤ a ∧ a < start + bytes.length then bytes.getD (a - start) 0 else m a

/-- `Ram::load`: copy the program bytes to `START_ADDR` onward, then
(re)install the font at addresses `0x000..0x050`. -/
def ramLoad (m : Nat → Nat) (data : List Nat) : Nat → Nat :=
  writeRange (writeRange m START_ADDR data) 0 FONT_SET

/-- The interpreter state (`pub struct Emu`).  The `Mutex`-wrapped counters are
plain fields; `rng`/`rngIdx` model the ambient `rand::random::<u8>()` stream. -/
structure Emu where
  pc : Nat
  sp : Nat
  r_i : Nat
  regs : Nat → Nat
  stack : Nat → Nat
  ram : Nat → Nat
  keys : Nat → Bool
  display : Nat → Bool
  dt : Nat
  st : Nat
  steps : Nat
  quit : Bool
  rng : Nat → Nat
  rngIdx : Nat

/-- `Emu::default`: `pc = START_ADDR`, everything else zeroed / cleared. -/
def Emu.default : Emu where
  pc := START_ADDR
  sp := 0
  r_i := 0
  regs := fun _ => 0
  stack := fun _ => 0
  ram := fun _ => 0
  keys := fun _ => false
  display := fun _ => false
  dt := 0
  st := 0
  steps := 0
  quit := false
  rng := fun _ => 0
  rngIdx := 0

/-- `Emu::load`: load a ROM into RAM. -/
def Emu.load (s : Emu) (rom : List Nat) : Emu :=
  {s with ram := ramLoad s.ram rom}

/-- `Emu::jump_next`: `self.pc += 2` (a `u16` addition). -/
def Emu.jump_next (s : Emu) : Emu :=
  {s with pc := (s.pc + 2) % 65536}

/-- `Emu::sub`: the wrapping byte subtraction `x - y`; it writes the
inverted-borrow flag into `V15` (0 on underflow, else 1) and returns the
wrapped difference. -/
def Emu.sub (s : Emu) (x y : Nat) : Emu × Nat :=
  ({s with regs := Function.update s.regs 15 (if x < y then 0 else 1)},
   if x < y then x + 256 - y else x - y)

/-- One pass of the `Fx0A` key scan (`for (i, key) in self.keys.iter().enumerate()`):
starting at index `i` with `r` entries left, return the first pressed key. -/
def scanKeys (keys : Nat → Bool) : Nat → Nat → Option Nat
  | _, 0 => none
  | i, r + 1 => if keys i then some i else scanKeys keys (i + 1) r

/-- The `Fx0A` busy-wait loop, indexed by fuel.  Each iteration re-scans the
same key array (nothing inside the loop can change it), so it either succeeds
on the first iteration or never. -/
def waitLoop (keys : Nat → Bool) : Nat → Option Nat
  | 0 => none
  | f + 1 =>
    match scanKeys keys 0 16 with
    | some i => some i
    | none => waitLoop keys f

/-- The inner body of the `Dxyn` draw loops, applied to the list of touched
display indices in loop order: each visit records a collision if the cell is
set and then XOR-flips it. -/
def drawList : List Nat → (Nat → Bool) → Bool → (Nat → Bool) × Bool
  | [], d, c => (d, c)
  | i :: t, d, c => drawList t (Function.update d i (! d i)) (c || d i)

/-- Whether an index occurs an odd number of times in a list of toggles (the
net effect of XOR-flipping each listed cell once, in order). -/
def togglesOdd : List Nat → Nat → Bool
  | [], _ => false
  | a :: t, i => if i = a then ! togglesOdd t i else togglesOdd t i

/-- The display indices touched by a `Dxyn` draw, in loop order: for each of
the `n` sprite rows read `ram[start + row]`, and for each set bit (MSB first)
emit `((yc+row) % 32) * 64 + ((xc+col) % 64)`. -/
def spriteIdxs (ram : Nat → Nat) (start xc yc n : Nat) : List Nat :=
  (List.range n).flatMap (fun yl =>
    (List.range 8).filterMap (fun xl =>
      if ram (start + yl) &&& (128 >>> xl) ≠ 0 then
        some ((yc + yl) % 32 * 64 + (xc + xl) % 64)
      else none))

/-- `Emu::execute`: dispatch one decoded instruction.  The `match` over nibble
patterns in the Rust source becomes a condition chain in source order; `some
(.ok _)`/`some (.error _)` mirror `Ok(())`/`Err(..)`, and `none` marks the
diverging `Fx0A` busy-wait (see `waitLoop`). -/
def Emu.execute (s : Emu) (ins : Instruction) : Option (Except EmuError Emu) :=
  match ins.decode with
  | (a, b, c, d) =>
    if a = 0 ∧ b = 0 ∧ c = 0 ∧ d = 0 then
      some (.ok s)
    else if a = 0 ∧ b = 0 ∧ c = 0xE ∧ d = 0 then
      some (.ok {s with display := fun _ => false})
    else if a = 0 ∧ b = 0 ∧ c = 0xE ∧ d = 0xE then
      let sp1 := (s.sp + 255) % 256
      some (.ok {s with sp := sp1, pc := s.stack sp1})
    else if a = 1 then
      some (.ok {s with pc := ins.nnn})
    else if a = 2 then
      some (.ok {s with stack := Function.update s.stack s.sp s.pc,
                        sp := (s.sp + 1) % 256,
                        pc := ins.nnn})
    else if a = 3 then
      some (.ok (if s.regs b = ins.kk then s.jump_next else s))
    else if a = 4 then
      some (.ok (if s.regs b ≠ ins.kk then s.jump_next else s))
    else if a = 5 ∧ d = 0 then
      some (.ok (if s.regs b = s.regs c then s.jump_next else s))
    else if a = 6 then
      some (.ok {s with regs := Function.update s.regs b ins.kk})
    else if a = 7 then
      some (.ok {s with regs := Function.update s.regs b ((s.regs b + ins.kk) % 256)})
    else if a = 8 ∧ d = 0 then
      some (.ok {s with regs := Function.update s.regs b (s.regs c)})
    else if a = 8 ∧ d = 1 then
      some (.ok {s with regs := Function.update s.regs b (s.regs b ||| s.regs c)})
    else if a = 8 ∧ d = 2 then
      some (.ok {s with regs := Function.update s.regs b (s.regs b &&& s.regs c)})
    else if a = 8 ∧ d = 3 then
      some (.ok {s with regs := Function.update s.regs b (s.regs b ^^^ s.regs c)})
    else if a = 8 ∧ d = 4 then
      let sum := (s.regs b + s.regs c) % 256
      let flag := if 256 ≤ s.regs b + s.regs c then (1 : Nat) else 0
      let s1 := {s with regs := Function.update s.regs 15 flag}
      some (.ok {s1 with regs := Function.update s1.regs b sum})
    else if a = 8 ∧ d = 5 then
      match s.sub (s.regs b) (s.regs c) with
      | (s1, r) => some (.ok {s1 with regs := Function.update s1.regs b r})
    else if a = 8 ∧ d = 6 then
      let flag := if 1 &&& s.regs b = 1 then (1 : Nat) else 0
      let s1 := {s with regs := Function.update s.regs 15 flag}
      some (.ok {s1 with regs := Function.update s1.regs b (s1.regs b / 2)})
    else if a = 8 ∧ d = 7 then
      match s.sub (s.regs c) (s.regs b) with
      | (s1, r) => some (.ok {s1 with regs := Function.update s1.regs b r})
    else if a = 8 ∧ d = 0xE then
      let flag := if 128 &&& s.regs b = 1 then (1 : Nat) else 0
      let s1 := {s with regs := Function.update s.regs 15 flag}
      some (.ok {s1 with regs := Function.update s1.regs b (s1.regs b * 2 % 256)})
    else if a = 9 ∧ d = 0 then
      some (.ok (if s.regs b ≠ s.regs c then s.jump_next else s))
    else if a = 0xA then
      some (.ok {s with r_i := ins.nnn})
    else if a = 0xB then
      some (.ok {s with pc := (ins.nnn + s.regs 0) % 65536})
    else if a = 0xC then
      some (.ok {s with regs := Function.update s.regs b (s.rng s.rngIdx &&& ins.kk),
                        rngIdx := s.rngIdx + 1})
    else if a = 0xD then
      match drawList (spriteIdxs s.ram s.r_i (s.regs b) (s.regs c) d) s.display false with
      | (d1, col) =>
        some (.ok {s with display := d1,
                          regs := Function.update s.regs 15 (if col then 1 else 0)})
    else if a = 0xE ∧ c = 9 ∧ d = 0xE then
      some (.ok (if s.keys (s.regs b) then s.jump_next else s))
    else if a = 0xE ∧ c = 0xA ∧ d = 1 then
      some (.ok (if ¬ s.keys (s.regs b) then s.jump_next else s))
    else if a = 0xF ∧ c = 0 ∧ d = 7 then
      some (.ok {s with regs := Function.update s.regs b s.dt})
    else if a = 0xF ∧ c = 0 ∧ d = 0xA then
      match scanKeys s.keys 0 16 with
      | some i => some (.ok {s with regs := Function.update s.regs b i})
      | none => none
    else if a = 0xF ∧ c = 1 ∧ d = 5 then
      some (.ok {s with dt := s.regs b})
    else if a = 0xF ∧ c = 1 ∧ d = 8 then
      some (.ok {s with st := s.regs b})
    else if a = 0xF ∧ c = 1 ∧ d = 0xE then
      some (.ok {s with r_i := (s.r_i + s.regs b) % 65536})
    else if a = 0xF ∧ c = 2 ∧ d = 9 then
      some (.ok {s with r_i := s.regs b * 5 % 65536})
    else if a = 0xF ∧ c = 3 ∧ d = 3 then
      let m1 := Function.update s.ram s.r_i (s.regs b / 100 % 10)
      let m2 := Function.update m1 (s.r_i + 1) (s.regs b / 10 % 10)
      let m3 := Function.update m2 (s.r_i + 2) (s.regs b % 10)
      some (.ok {s with ram := m3})
    else if a = 0xF ∧ c = 5 ∧ d = 5 then
      let m1 := (List.range (b + 1)).foldl
        (fun m i => Function.update m (s.r_i + i) (s.regs i)) s.ram
      some (.ok {s with ram := m1})
    else if a = 0xF ∧ c = 6 ∧ d = 5 then
      let r1 := (List.range (b + 1)).foldl
        (fun r i => Function.update r i (s.ram (s.r_i + i))) s.regs
      some (.ok {s with regs := r1})
    else
      some (.error (.unknownInstruction ins.w))

/-- `Emu::fetch`: read the big-endian instruction word at `pc` and advance
`pc` by 2 (the `assert!(pc % 2 == 0)` precondition appears as a hypothesis of
the theorems that go through `fetch`). -/
def Emu.fetch (s : Emu) : Instruction × Emu :=
  (⟨(s.ram s.pc <<< 8) ||| s.ram (s.pc + 1)⟩, s.jump_next)

/-- `Emu::step`: one fetch + execute cycle; on success the step counter is
incremented. -/
def Emu.step (s : Emu) : Option (Except EmuError Emu) :=
  match s.fetch with
  | (ins, s1) =>
    match s1.execute ins with
    | none => none
    | some (.error e) => some (.error e)
    | some (.ok s2) => some (.ok {s2 with steps := s2.steps + 1})

/-- `Emu::run`, indexed by fuel: check the quit flag, then step; a step error
aborts the loop and propagates, and `none` marks running out of fuel (the
loop's possible divergence). -/
def runFuel : Nat → Emu → Option (Except EmuError Emu)
  | 0, _ => none
  | f + 1, s =>
    if s.quit then some (.ok s)
    else
      match s.step with
      | none => none
      | some (.error e) => some (.error e)
      | some (.ok s1) => runFuel f s1

/-- The state after a successful `execute`, for concrete evaluations. -/
def afterExec (s : Emu) (ins : Instruction) : Emu :=
  match s.execute ins with
  | some (.ok s1) => s1
  | _ => s

/-- The state after a successful `step`, for concrete evaluations. -/
def stepOk (s : Emu) : Emu :=
  match s.step with
  | some (.ok s1) => s1
  | _ => s

/-- The nibble tuples matched by some arm of `Emu::execute`'s dispatch
(everything except the final catch-all), condition for condition in source
order. -/
def definedFamily (a b c d : Nat) : Prop :=
  (a = 0 ∧ b = 0 ∧ c = 0 ∧ d = 0) ∨
  (a = 0 ∧ b = 0 ∧ c = 0xE ∧ d = 0) ∨
  (a = 0 ∧ b = 0 ∧ c = 0xE ∧ d = 0xE) ∨
  (a = 1) ∨ (a = 2) ∨ (a = 3) ∨ (a = 4) ∨
  (a = 5 ∧ d = 0) ∨
  (a = 6) ∨ (a = 7) ∨
  (a = 8 ∧ d = 0) ∨ (a = 8 ∧ d = 1) ∨ (a = 8 ∧ d = 2) ∨ (a = 8 ∧ d = 3) ∨
  (a = 8 ∧ d = 4) ∨ (a = 8 ∧ d = 5) ∨ (a = 8 ∧ d = 6) ∨ (a = 8 ∧ d = 7) ∨
  (a = 8 ∧ d = 0xE) ∨
  (a = 9 ∧ d = 0) ∨
  (a = 0xA) ∨ (a = 0xB) ∨ (a = 0xC) ∨ (a = 0xD) ∨
  (a = 0xE ∧ c = 9 ∧ d = 0xE) ∨
  (a = 0xE ∧ c = 0xA ∧ d = 1) ∨
  (a = 0xF ∧ c = 0 ∧ d = 7) ∨
  (a = 0xF ∧ c = 0 ∧ d = 0xA) ∨
  (a = 0xF ∧ c = 1 ∧ d = 5) ∨
  (a = 0xF ∧ c = 1 ∧ d = 8) ∨
  (a = 0xF ∧ c = 1 ∧ d = 0xE) ∨
  (a = 0xF ∧ c = 2 ∧ d = 9) ∨
  (a = 0xF ∧ c = 3 ∧ d = 3) ∨
  (a = 0xF ∧ c = 5 ∧ d = 5) ∨
  (a = 0xF ∧ c = 6 ∧ d = 5)

/-- A state with `V0 = 0x80`, used to evaluate the `8xyE` shift opcode. -/
def emuC1 : Emu :=
  {Emu.default with regs := fun i => if i = 0 then 0x80 else 0}

/-- A state with `V0 = 1` and `V15 = 0xFF`, used to evaluate `8F04`. -/
def emuC3 : Emu :=
  {Emu.default with regs := fun i => if i = 0 then 1 else if i = 15 then 0xFF else 0}

/-- A state with `V0 = 2` and `V15 = 5`, used to evaluate `8F05`. -/
def emuC4 : Emu :=
  {Emu.default with regs := fun i => if i = 0 then 2 else if i = 15 then 5 else 0}

/-- A state whose program is `2300` (call 0x300) at `0x200` and `00EE`
(return) at `0x300`. -/
def emuC5 : Emu :=
  {Emu.default with ram := fun a =>
    if a = 0x200 then 0x23 else if a = 0x201 then 0x00 else
    if a = 0x300 then 0x00 else if a = 0x301 then 0xEE else 0}

/-- A state whose RAM holds the one-row sprite `0xFF` at address 0 (where
`I` points), used to evaluate the `D011` draw opcode. -/
def emuC6 : Emu :=
  {Emu.default with ram := fun a => if a = 0 then 0xFF else 0}

/-- A state whose program is `3000` (skip if `V0 = 0`) at `0x200`. -/
def emuC7 : Emu :=
  {Emu.default with ram := fun a => if a = 0x200 then 0x30 else 0}

/-- A state whose program is the unrecognized word `5001` at `0x200`. -/
def emuC9 : Emu :=
  {Emu.default with ram := fun a =>
    if a = 0x200 then 0x50 else if a = 0x201 then 0x01 else 0}

/-- A state in which exactly key 3 is pressed, used to evaluate `F00A`. -/
def emuC10 : Emu :=
  {Emu.default with keys := fun i => i = 3}

theorem and_div_two_pow (a b : Nat) : ∀ k, (a &&& b) / 2 ^ k = (a / 2 ^ k) &&& (b / 2 ^ k)
  | 0 => by simp
  | k + 1 => by
    have h1 : (2 : Nat) ^ (k + 1) = 2 ^ k * 2 := by ring
    rw [h1, ← Nat.div_div_eq_div_mul, ← Nat.div_div_eq_div_mul, ← Nat.div_div_eq_div_mul,
      and_div_two_pow a b k]
    exact Nat.and_div_two

theorem land_mod_16 (w : Nat) : w &&& 15 = w % 16 := by
  have h := Nat.and_pow_two_sub_one_eq_mod w 4
  norm_num at h
  exact h

/-- Arithmetic form of the nibble decomposition. -/
theorem decode_eq (w : Nat) :
    (Instruction.mk w).decode = (w / 4096 % 16, w / 256 % 16, w / 16 % 16, w % 16) := by
  have h1 : (w &&& 0xF000) >>> 12 = w / 4096 % 16 := by
    rw [Nat.shiftRight_eq_div_pow]
    have := and_div_two_pow w 0xF000 12
    norm_num at this ⊢
    rw [this, land_mod_16]
  have h2 : (w &&& 0x0F00) >>> 8 = w / 256 % 16 := by
    rw [Nat.shiftRight_eq_div_pow]
    have := and_div_two_pow w 0x0F00 8
    norm_num at this ⊢
    rw [this, land_mod_16]
  have h3 : (w &&& 0x00F0) >>> 4 = w / 16 % 16 := by
    rw [Nat.shiftRight_eq_div_pow]
    have := and_div_two_pow w 0x00F0 4
    norm_num at this ⊢
    rw [this, land_mod_16]
  have h4 : w &&& 0x000F = w % 16 := land_mod_16 w
  simp only [Instruction.decode, h1, h2, h3, h4]

/-- Arithmetic form of the address operand. -/
theorem nnn_eq (w : Nat) : (Instruction.mk w).nnn = w % 4096 := by
  have h := Nat.and_pow_two_sub_one_eq_mod w 12
  norm_num at h
  simpa [Instruction.nnn] using h

/-- Arithmetic form of the immediate operand. -/
theorem kk_eq (w : Nat) : (Instruction.mk w).kk = w % 256 := by
  have h := Nat.and_pow_two_sub_one_eq_mod w 8
  norm_num at h
  simpa [Instruction.kk] using h

/-- The big-endian word assembled by `fetch`, in arithmetic form. -/
theorem word_eq (hb lb : Nat) (h : lb < 256) :
    (hb <<< 8) ||| lb = hb * 256 + lb := by
  apply Nat.eq_of_testBit_eq
  intro i
  rw [Nat.testBit_or, Nat.testBit_shiftLeft]
  rcases Nat.lt_or_ge i 8 with hi | hi
  · have hd : decide (i ≥ 8) = false := by simp; omega
    rw [hd]
    simp only [Bool.false_and, Bool.false_or]
    rw [Nat.testBit_to_div_mod, Nat.testBit_to_div_mod]
    have hexp : i + (8 - i) = 8 := by omega
    have hpow : (2 : Nat) ^ i * 2 ^ (8 - i) = 256 := by
      rw [← Nat.pow_add, hexp]
    have hdiv : (hb * 256 + lb) / 2 ^ i = 2 ^ (8 - i) * hb + lb / 2 ^ i := by
      rw [← hpow, Nat.mul_comm hb (2 ^ i * 2 ^ (8 - i)), Nat.mul_assoc,
        Nat.mul_add_div (Nat.two_pow_pos i)]
    have h8 : (8 : Nat) - i = (7 - i) + 1 := by omega
    have h2 : (2 : Nat) ^ (8 - i) = 2 ^ (7 - i) * 2 := by rw [h8, Nat.pow_succ]
    have h3 : (2 : Nat) ^ (7 - i) * 2 * hb = 2 * (2 ^ (7 - i) * hb) := by ring
    rw [hdiv, h2, h3, Nat.mul_add_mod]
  · have hd : decide (i ≥ 8) = true := by simp; omega
    rw [hd]
    simp only [Bool.true_and]
    have hlb : lb.testBit i = false := by
      apply Nat.testBit_lt_two_pow
      calc lb < 256 := h
        _ = 2 ^ 8 := by norm_num
        _ ≤ 2 ^ i := Nat.pow_le_pow_right (by norm_num) hi
    rw [hlb, Bool.or_false]
    rw [Nat.testBit_to_div_mod, Nat.testBit_to_div_mod]
    have hdiv : (hb * 256 + lb) / 2 ^ i = hb / 2 ^ (i - 8) := by
      have hsplit : (2 : Nat) ^ i = 2 ^ 8 * 2 ^ (i - 8) := by
        rw [← Nat.pow_add]
        congr 1
        omega
      rw [hsplit, ← Nat.div_div_eq_div_mul]
      have h1 : (hb * 256 + lb) / 2 ^ 8 = hb := by
        have h2 : hb * 256 + lb = 2 ^ 8 * hb + lb := by ring_nf
        rw [h2, Nat.mul_add_div (Nat.two_pow_pos 8),
          Nat.div_eq_of_lt (by norm_num [h] : lb < 2 ^ 8), Nat.add_zero]
      rw [h1]
    rw [hdiv]

/-- C2 (amended): executing `7xkk` writes `(Vx + kk) % 256` into `Vx` (wrapping
addition, no flag written); consequently `V15` is untouched whenever `x ≠ 15`,
and with `Vx = 0xFF`, `kk = 0x01` the result is `Vx = 0`. -/
theorem c2_add_imm (s : Emu) (x kk : Nat) (hx : x < 16) (hk : kk < 256) :
    s.execute ⟨0x7000 + x * 256 + kk⟩ =
      some (.ok {s with regs := Function.update s.regs x ((s.regs x + kk) % 256)}) ∧
    (x ≠ 15 → Function.update s.regs x ((s.regs x + kk) % 256) 15 = s.regs 15) ∧
    (s.regs x = 0xFF → kk = 1 → Function.update s.regs x ((s.regs x + kk) % 256) x = 0) := by
  refine ⟨?_, ?_, ?_⟩
  · have hdec : (Instruction.mk (0x7000 + x * 256 + kk)).decode = (7, x, kk / 16, kk % 16) := by
      rw [decode_eq]
      simp only [Prod.mk.injEq]
      refine ⟨by omega, by omega, by omega, by omega⟩
    have hkk : (Instruction.mk (0x7000 + x * 256 + kk)).kk = kk := by
      rw [kk_eq]; omega
    simp only [Emu.execute, hdec, hkk]
    norm_num
  · intro hne
    rw [Function.update_noteq (by omega)]
  · intro h1 h2
    rw [Function.update_same, h1, h2]

/-- C2 witness: `72FF` on the default state, evaluated concretely. -/
theorem c2_add_imm_witness :
    Emu.default.execute ⟨0x7000 + 2 * 256 + 255⟩ =
      some (.ok {Emu.default with
        regs := Function.update Emu.default.regs 2 ((Emu.default.regs 2 + 255) % 256)}) ∧
    Function.update Emu.default.regs 2 ((Emu.default.regs 2 + 255) % 256) 15 =
      Emu.default.regs 15 :=
  ⟨(c2_add_imm Emu.default 2 255 (by decide) (by decide)).1,
   (c2_add_imm Emu.default 2 255 (by decide) (by decide)).2.1 (by decide)⟩

/-- C2 counterexample: executing `7F01` (so `x = 15`, `kk = 1`) on the default
state changes `V15` from 0 to 1, refuting "leaves register V15 untouched" as
universally stated. -/
theorem c2_add_imm_cex :
    (afterExec Emu.default ⟨0x7000 + 15 * 256 + 1⟩).regs 15 = 1 ∧
    Emu.default.regs 15 = 0 ∧
    ¬ (afterExec Emu.default ⟨0x7000 + 15 * 256 + 1⟩).regs 15 = Emu.default.regs 15 := by
  refine ⟨by decide, by decide, by decide⟩

/-- C3 (amended): `8xy4` first writes the carry flag into `V15` (1 if
`Vx + Vy` overflows a byte, else 0) and then, as its final effect, writes
`(Vx + Vy) % 256` into `Vx`.  For `x != 15` the flag stands (and the claim's
examples hold); for `x = 15` the sum overwrites the flag. -/
theorem c3_add_reg (s : Emu) (x y : Nat) (hx : x < 16) (hy : y < 16) :
    s.execute ⟨0x8004 + x * 256 + y * 16⟩ =
      some (.ok {s with regs := Function.update (Function.update s.regs 15 (if 256 ≤ s.regs x + s.regs y then 1 else 0)) x ((s.regs x + s.regs y) % 256)}) ∧
    (x ≠ 15 →
      Function.update (Function.update s.regs 15 (if 256 ≤ s.regs x + s.regs y then 1 else 0)) x ((s.regs x + s.regs y) % 256) 15 =
        (if 256 ≤ s.regs x + s.regs y then 1 else 0)) ∧
    (x ≠ 15 → s.regs x = 0xFF → s.regs y = 1 →
      Function.update (Function.update s.regs 15 (if 256 ≤ s.regs x + s.regs y then 1 else 0)) x ((s.regs x + s.regs y) % 256) x = 0 ∧
      Function.update (Function.update s.regs 15 (if 256 ≤ s.regs x + s.regs y then 1 else 0)) x ((s.regs x + s.regs y) % 256) 15 = 1) ∧
    (x ≠ 15 → s.regs x = 1 → s.regs y = 1 →
      Function.update (Function.update s.regs 15 (if 256 ≤ s.regs x + s.regs y then 1 else 0)) x ((s.regs x + s.regs y) % 256) x = 2 ∧
      Function.update (Function.update s.regs 15 (if 256 ≤ s.regs x + s.regs y then 1 else 0)) x ((s.regs x + s.regs y) % 256) 15 = 0) := by
  refine ⟨?_, ?_, ?_, ?_⟩
  · have hdec : (Instruction.mk (0x8004 + x * 256 + y * 16)).decode = (8, x, y, 4) := by
      rw [decode_eq]
      simp only [Prod.mk.injEq]
      refine ⟨by omega, by omega, by omega, by omega⟩
    simp only [Emu.execute, hdec]
    norm_num
  · intro hne
    rw [Function.update_noteq (by omega), Function.update_same]
  · intro hne h1 h2
    constructor
    · rw [Function.update_same, h1, h2]
    · rw [Function.update_noteq (by omega), Function.update_same, h1, h2]
      norm_num
  · intro hne h1 h2
    constructor
    · rw [Function.update_same, h1, h2]
    · rw [Function.update_noteq (by omega), Function.update_same, h1, h2]
      norm_num

/-- C3 witness: `8124` on the default state, evaluated concretely. -/
theorem c3_add_reg_witness :
    Emu.default.execute ⟨0x8004 + 1 * 256 + 2 * 16⟩ =
      some (.ok {Emu.default with regs := Function.update (Function.update Emu.default.regs 15 (if 256 ≤ Emu.default.regs 1 + Emu.default.regs 2 then 1 else 0)) 1 ((Emu.default.regs 1 + Emu.default.regs 2) % 256)}) ∧
    Function.update (Function.update Emu.default.regs 15 (if 256 ≤ Emu.default.regs 1 + Emu.default.regs 2 then 1 else 0)) 1 ((Emu.default.regs 1 + Emu.default.regs 2) % 256) 15 =
      (if 256 ≤ Emu.default.regs 1 + Emu.default.regs 2 then 1 else 0) :=
  ⟨(c3_add_reg Emu.default 1 2 (by decide) (by decide)).1,
   (c3_add_reg Emu.default 1 2 (by decide) (by decide)).2.1 (by decide)⟩

/-- C3 counterexample: `8F04` (so `x = 15`) with `V15 = 0xFF`, `V0 = 1`: the
addition overflows, yet `V15` ends as the wrapped sum 0, not as the carry 1,
because the sum is written after the flag. -/
theorem c3_add_reg_cex :
    emuC3.regs 15 = 0xFF ∧ emuC3.regs 0 = 1 ∧
    (afterExec emuC3 ⟨0x8004 + 15 * 256 + 0 * 16⟩).regs 15 = 0 ∧
    ¬ (afterExec emuC3 ⟨0x8004 + 15 * 256 + 0 * 16⟩).regs 15 = 1 := by
  refine ⟨by decide, by decide, by decide, by decide⟩

/-- C4 (amended): `8xy5` first writes the inverted-borrow flag into `V15`
(0 if `Vx < Vy`, else 1) and then, as its final effect, writes
`(Vx - Vy) % 256` into `Vx`.  For `x != 15` the flag stands (and the claim's
examples hold); for `x = 15` the difference overwrites the flag. -/
theorem c4_sub_reg (s : Emu) (x y : Nat) (hx : x < 16) (hy : y < 16) :
    s.execute ⟨0x8005 + x * 256 + y * 16⟩ =
      some (.ok {s with regs := Function.update (Function.update s.regs 15 (if s.regs x < s.regs y then 0 else 1)) x (if s.regs x < s.regs y then s.regs x + 256 - s.regs y else s.regs x - s.regs y)}) ∧
    (x ≠ 15 →
      Function.update (Function.update s.regs 15 (if s.regs x < s.regs y then 0 else 1)) x (if s.regs x < s.regs y then s.regs x + 256 - s.regs y else s.regs x - s.regs y) 15 =
        (if s.regs x < s.regs y then 0 else 1)) ∧
    (x ≠ 15 → s.regs x = 1 → s.regs y = 2 →
      Function.update (Function.update s.regs 15 (if s.regs x < s.regs y then 0 else 1)) x (if s.regs x < s.regs y then s.regs x + 256 - s.regs y else s.regs x - s.regs y) x = 0xFF ∧
      Function.update (Function.update s.regs 15 (if s.regs x < s.regs y then 0 else 1)) x (if s.regs x < s.regs y then s.regs x + 256 - s.regs y else s.regs x - s.regs y) 15 = 0) ∧
    (x ≠ 15 → s.regs x = 5 → s.regs y = 2 →
      Function.update (Function.update s.regs 15 (if s.regs x < s.regs y then 0 else 1)) x (if s.regs x < s.regs y then s.regs x + 256 - s.regs y else s.regs x - s.regs y) x = 3 ∧
      Function.update (Function.update s.regs 15 (if s.regs x < s.regs y then 0 else 1)) x (if s.regs x < s.regs y then s.regs x + 256 - s.regs y else s.regs x - s.regs y) 15 = 1) := by
  refine ⟨?_, ?_, ?_, ?_⟩
  · have hdec : (Instruction.mk (0x8005 + x * 256 + y * 16)).decode = (8, x, y, 5) := by
      rw [decode_eq]
      simp only [Prod.mk.injEq]
      refine ⟨by omega, by omega, by omega, by omega⟩
    simp only [Emu.execute, hdec, Emu.sub]
    norm_num
  · intro hne
    rw [Function.update_noteq (by omega), Function.update_same]
  · intro hne h1 h2
    constructor
    · rw [Function.update_same, h1, h2]
      norm_num
    · rw [Function.update_noteq (by omega), Function.update_same, h1, h2]
      norm_num
  · intro hne h1 h2
    constructor
    · rw [Function.update_same, h1, h2]
      norm_num
    · rw [Function.update_noteq (by omega), Function.update_same, h1, h2]
      norm_num

/-- C4 witness: `8125` on the default state, evaluated concretely. -/
theorem c4_sub_reg_witness :
    Emu.default.execute ⟨0x8005 + 1 * 256 + 2 * 16⟩ =
      some (.ok {Emu.default with regs := Function.update (Function.update Emu.default.regs 15 (if Emu.default.regs 1 < Emu.default.regs 2 then 0 else 1)) 1 (if Emu.default.regs 1 < Emu.default.regs 2 then Emu.default.regs 1 + 256 - Emu.default.regs 2 else Emu.default.regs 1 - Emu.default.regs 2)}) ∧
    Function.update (Function.update Emu.default.regs 15 (if Emu.default.regs 1 < Emu.default.regs 2 then 0 else 1)) 1 (if Emu.default.regs 1 < Emu.default.regs 2 then Emu.default.regs 1 + 256 - Emu.default.regs 2 else Emu.default.regs 1 - Emu.default.regs 2) 15 =
      (if Emu.default.regs 1 < Emu.default.regs 2 then 0 else 1) :=
  ⟨(c4_sub_reg Emu.default 1 2 (by decide) (by decide)).1,
   (c4_sub_reg Emu.default 1 2 (by decide) (by decide)).2.1 (by decide)⟩

/-- C4 counterexample: `8F05` (so `x = 15`) with `V15 = 5`, `V0 = 2`: no
underflow, so the claim says `V15 = 1`, but the difference 3 is written after
the flag and `V15` ends as 3. -/
theorem c4_sub_reg_cex :
    emuC4.regs 15 = 5 ∧ emuC4.regs 0 = 2 ∧
    (afterExec emuC4 ⟨0x8005 + 15 * 256 + 0 * 16⟩).regs 15 = 3 ∧
    ¬ (afterExec emuC4 ⟨0x8005 + 15 * 256 + 0 * 16⟩).regs 15 = 1 := by
  refine ⟨by decide, by decide, by decide, by decide⟩

/-- C1 (code behavior at the failing input): executing `800E` with
`V0 = 0x80` shifts `V0` to 0 but leaves `V15 = 0`, although the pre-shift
high bit `(V0 & 0x80) >> 7` is 1 — the source guard
`0b1000_0000 & self.reg(x) == 1` can never hold, so the flag is always 0. -/
theorem c1_shift_flag :
    emuC1.regs 0 = 0x80 ∧
    (emuC1.regs 0 &&& 0x80) >>> 7 = 1 ∧
    (afterExec emuC1 ⟨0x800E⟩).regs 0 = 0 ∧
    (afterExec emuC1 ⟨0x800E⟩).regs 15 = 0 ∧
    ¬ (afterExec emuC1 ⟨0x800E⟩).regs 15 = (emuC1.regs 0 &&& 0x80) >>> 7 := by
  refine ⟨by decide, by decide, by decide, by decide, by decide⟩

/-- C8 (confirmed): for every ROM that fits in memory, loading it installs the
80 font bytes at addresses `0x000`–`0x04F` regardless of the ROM's content,
and the ROM bytes appear unmodified from `0x200` onward. -/
theorem c8_load_rom (s : Emu) (data : List Nat)
    (h : START_ADDR + data.length ≤ 4096) :
    (∀ a, a < 80 → (s.load data).ram a = FONT_SET.getD a 0) ∧
    (∀ i, i < data.length → (s.load data).ram (START_ADDR + i) = data.getD i 0) := by
  constructor
  · intro a ha
    show ramLoad s.ram data a = _
    unfold ramLoad writeRange
    have hf : FONT_SET.length = 80 := by rfl
    simp only [hf]
    rw [if_pos ⟨Nat.zero_le a, by omega⟩]
    simp
  · intro i hi
    show ramLoad s.ram data (START_ADDR + i) = _
    unfold ramLoad writeRange START_ADDR
    have hf : FONT_SET.length = 80 := by rfl
    simp only [hf]
    rw [if_neg (by omega), if_pos ⟨by omega, by omega⟩]
    simp

/-- C8 witness: loading the one-byte ROM `[0xAB]` into the default state puts
font byte `0xF0` at address 0 and the ROM byte at `0x200`. -/
theorem c8_load_rom_witness :
    (Emu.default.load [0xAB]).ram 0 = 0xF0 ∧
    (Emu.default.load [0xAB]).ram (START_ADDR + 0) = 0xAB := by
  constructor
  · rw [(c8_load_rom Emu.default [0xAB] (by decide)).1 0 (by decide)]
    rfl
  · rw [(c8_load_rom Emu.default [0xAB] (by decide)).2 0 (by decide)]
    rfl

theorem scanKeys_none_iff (keys : Nat → Bool) :
    ∀ r i, scanKeys keys i r = none ↔ ∀ k, k < r → keys (i + k) = false := by
  intro r
  induction r with
  | zero =>
    intro i
    simp [scanKeys]
  | succ r ih =>
    intro i
    simp only [scanKeys]
    by_cases h : keys i = true
    · rw [if_pos h]
      constructor
      · intro hc
        simp at hc
      · intro hall
        have h0 := hall 0 (by omega)
        rw [Nat.add_zero] at h0
        rw [h0] at h
        simp at h
    · rw [if_neg h]
      rw [ih (i + 1)]
      constructor
      · intro hall k hk
        cases k with
        | zero =>
          rw [Nat.add_zero]
          simpa using h
        | succ k =>
          have hh := hall k (by omega)
          have he : i + 1 + k = i + (k + 1) := by omega
          rw [he] at hh
          exact hh
      · intro hall k hk
        have hh := hall (k + 1) (by omega)
        have he : i + (k + 1) = i + 1 + k := by omega
        rw [he] at hh
        exact hh

theorem scanKeys_some (keys : Nat → Bool) :
    ∀ r i j, scanKeys keys i r = some j →
      i ≤ j ∧ j < i + r ∧ keys j = true ∧ ∀ k, i ≤ k → k < j → keys k = false := by
  intro r
  induction r with
  | zero =>
    intro i j h
    simp [scanKeys] at h
  | succ r ih =>
    intro i j h
    simp only [scanKeys] at h
    by_cases hk : keys i = true
    · rw [if_pos hk] at h
      have hij : i = j := by simpa using h
      subst hij
      exact ⟨Nat.le_refl i, by omega, hk, fun k hik hki => absurd hik (by omega)⟩
    · rw [if_neg hk] at h
      obtain ⟨h1, h2, h3, h4⟩ := ih (i + 1) j h
      refine ⟨by omega, by omega, h3, ?_⟩
      intro k hik hkj
      rcases Nat.eq_or_lt_of_le hik with heq | hlt
      · rw [← heq]
        simpa using hk
      · exact h4 k (by omega) hkj

theorem waitLoop_of_none (keys : Nat → Bool) (hs : scanKeys keys 0 16 = none) :
    ∀ f, waitLoop keys f = none := by
  intro f
  induction f with
  | zero => rfl
  | succ f ih =>
    simp only [waitLoop, hs]
    exact ih

theorem waitLoop_eq_scan (keys : Nat → Bool) : ∀ f, 1 ≤ f → waitLoop keys f = scanKeys keys 0 16 := by
  intro f hf
  cases f with
  | zero => omega
  | succ f =>
    simp only [waitLoop]
    cases hs : scanKeys keys 0 16 with
    | none => exact waitLoop_of_none keys hs f
    | some i => rfl

/-- C10 (confirmed): the `Fx0A` busy-wait terminates, for any amount of fuel,
exactly when some key flag is already true when the instruction executes (the
key array cannot change inside the loop); in that case the lowest-numbered
pressed key index is stored in `Vx`, and otherwise the wait runs forever and
`execute` diverges. -/
theorem c10_wait_key (s : Emu) (x : Nat) (hx : x < 16) :
    (∀ f, 1 ≤ f → waitLoop s.keys f = scanKeys s.keys 0 16) ∧
    ((∃ i, i < 16 ∧ s.keys i = true) →
      ∃ j, scanKeys s.keys 0 16 = some j ∧ j < 16 ∧ s.keys j = true ∧
        (∀ i, i < j → s.keys i = false) ∧
        s.execute ⟨0xF00A + x * 256⟩ = some (.ok {s with regs := Function.update s.regs x j})) ∧
    ((∀ i, i < 16 → s.keys i = false) →
      (∀ f, waitLoop s.keys f = none) ∧ s.execute ⟨0xF00A + x * 256⟩ = none) := by
  have hdec : (Instruction.mk (0xF00A + x * 256)).decode = (15, x, 0, 10) := by
    rw [decode_eq]
    simp only [Prod.mk.injEq]
    refine ⟨by omega, by omega, by omega, by omega⟩
  refine ⟨waitLoop_eq_scan s.keys, ?_, ?_⟩
  · intro hex
    cases hs : scanKeys s.keys 0 16 with
    | none =>
      obtain ⟨i, hi, hki⟩ := hex
      have hall := (scanKeys_none_iff s.keys 16 0).1 hs i hi
      rw [Nat.zero_add] at hall
      rw [hall] at hki
      simp at hki
    | some j =>
      obtain ⟨h1, h2, h3, h4⟩ := scanKeys_some s.keys 16 0 j hs
      refine ⟨j, rfl, by omega, h3, fun i hij => h4 i (Nat.zero_le i) hij, ?_⟩
      simp only [Emu.execute, hdec]
      norm_num
      rw [hs]
  · intro hall
    have hs : scanKeys s.keys 0 16 = none := by
      rw [scanKeys_none_iff]
      intro k hk
      rw [Nat.zero_add]
      exact hall k hk
    refine ⟨waitLoop_of_none s.keys hs, ?_⟩
    simp only [Emu.execute, hdec]
    norm_num
    rw [hs]

/-- C10 witness: with exactly key 3 pressed, `F00A` terminates at once and
stores 3 in `V0`. -/
theorem c10_wait_key_witness :
    waitLoop emuC10.keys 1 = some 3 ∧
    emuC10.execute ⟨0xF00A + 0 * 256⟩ =
      some (.ok {emuC10 with regs := Function.update emuC10.regs 0 3}) := by
  have h := c10_wait_key emuC10 0 (by decide)
  constructor
  · rw [h.1 1 (by decide)]
    rfl
  · obtain ⟨j, hj1, _, _, _, hj5⟩ := h.2.1 ⟨3, by decide, by decide⟩
    have h3 : scanKeys emuC10.keys 0 16 = some 3 := by rfl
    rw [h3] at hj1
    have hj : j = 3 := (Option.some.inj hj1).symm
    rw [hj] at hj5
    exact hj5

theorem execute_undefined (s : Emu) (ins : Instruction) (a b c d : Nat)
    (hdec : ins.decode = (a, b, c, d)) (hnd : ¬ definedFamily a b c d) :
    s.execute ins = some (.error (.unknownInstruction ins.w)) := by
  unfold definedFamily at hnd
  simp only [not_or] at hnd
  obtain ⟨h1, h2, h3, h4, h5, h6, h7, h8, h9, h10, h11, h12, h13, h14, h15, h16, h17,
    h18, h19, h20, h21, h22, h23, h24, h25, h26, h27, h28, h29, h30, h31, h32, h33,
    h34, h35⟩ := hnd
  simp only [Emu.execute, hdec]
  rw [if_neg h1, if_neg h2, if_neg h3, if_neg h4, if_neg h5, if_neg h6, if_neg h7,
    if_neg h8, if_neg h9, if_neg h10, if_neg h11, if_neg h12, if_neg h13, if_neg h14,
    if_neg h15, if_neg h16, if_neg h17, if_neg h18, if_neg h19, if_neg h20, if_neg h21,
    if_neg h22, if_neg h23, if_neg h24, if_neg h25, if_neg h26, if_neg h27, if_neg h28,
    if_neg h29, if_neg h30, if_neg h31, if_neg h32, if_neg h33, if_neg h34, if_neg h35]

/-- C9 (confirmed): when the fetched word decodes to a nibble tuple outside
every defined opcode family, `execute` returns the unknown-instruction error,
the enclosing `step` returns that same error, and `run` (at any fuel)
surfaces it unchanged to the caller — it is never swallowed or retried. -/
theorem c9_undefined_error (s : Emu) (a b c d : Nat)
    (hdec : (s.fetch.1).decode = (a, b, c, d))
    (hnd : ¬ definedFamily a b c d)
    (hq : s.quit = false) :
    s.step = some (.error (.unknownInstruction s.fetch.1.w)) ∧
    ∀ f, runFuel (f + 1) s = some (.error (.unknownInstruction s.fetch.1.w)) := by
  have hexec : (s.fetch.2).execute s.fetch.1 =
      some (.error (.unknownInstruction s.fetch.1.w)) :=
    execute_undefined _ _ a b c d hdec hnd
  have hstep : s.step = some (.error (.unknownInstruction s.fetch.1.w)) := by
    simp only [Emu.step]
    simp only [Emu.fetch] at hexec ⊢
    rw [hexec]
  refine ⟨hstep, ?_⟩
  intro f
  simp only [runFuel, hq]
  rw [hstep]
  simp

/-- C9 witness: the word `5001` (a `5xy0` pattern with nonzero last nibble)
aborts both `step` and `run` with the unknown-instruction error. -/
theorem c9_undefined_error_witness :
    emuC9.step = some (.error (.unknownInstruction 0x5001)) ∧
    runFuel 3 emuC9 = some (.error (.unknownInstruction 0x5001)) := by
  have h := c9_undefined_error emuC9 5 0 0 1 (by decide) (by unfold definedFamily; omega) rfl
  have hw : emuC9.fetch.1.w = 0x5001 := by decide
  constructor
  · rw [← hw]
    exact h.1
  · rw [← hw]
    exact h.2 2

theorem step_eq_execute (s : Emu) :
    s.step = match (s.jump_next).execute ⟨(s.ram s.pc <<< 8) ||| s.ram (s.pc + 1)⟩ with
      | none => none
      | some (.error e) => some (.error e)
      | some (.ok s2) => some (.ok {s2 with steps := s2.steps + 1}) := rfl

/-- C7 (confirmed): for each skip instruction `3xkk`, `4xkk`, `5xy0`, `9xy0`
sitting at the program counter, one fetch-execute step advances `pc` by
exactly 4 when the skip condition holds and by exactly 2 when it does not. -/
theorem c7_skip_pc (s : Emu) (x y kk : Nat) (hx : x < 16) (hy : y < 16)
    (hkk : kk < 256) (hpcb : s.pc + 1 < 4096) (hpc2 : s.pc % 2 = 0) :
    (s.ram s.pc = 0x30 + x ∧ s.ram (s.pc + 1) = kk →
      s.step = some (.ok (stepOk s)) ∧
      (stepOk s).pc = s.pc + (if s.regs x = kk then 4 else 2)) ∧
    (s.ram s.pc = 0x40 + x ∧ s.ram (s.pc + 1) = kk →
      s.step = some (.ok (stepOk s)) ∧
      (stepOk s).pc = s.pc + (if s.regs x ≠ kk then 4 else 2)) ∧
    (s.ram s.pc = 0x50 + x ∧ s.ram (s.pc + 1) = y * 16 →
      s.step = some (.ok (stepOk s)) ∧
      (stepOk s).pc = s.pc + (if s.regs x = s.regs y then 4 else 2)) ∧
    (s.ram s.pc = 0x90 + x ∧ s.ram (s.pc + 1) = y * 16 →
      s.step = some (.ok (stepOk s)) ∧
      (stepOk s).pc = s.pc + (if s.regs x ≠ s.regs y then 4 else 2)) := by
  refine ⟨?_, ?_, ?_, ?_⟩
  · intro hbl
    obtain ⟨hb, hl⟩ := hbl
    have hdec : (Instruction.mk (0x3000 + x * 256 + kk)).decode = (3, x, kk / 16, kk % 16) := by
      rw [decode_eq]
      simp only [Prod.mk.injEq]
      refine ⟨by omega, by omega, by omega, by omega⟩
    have hkk2 : (Instruction.mk (0x3000 + x * 256 + kk)).kk = kk := by rw [kk_eq]; omega
    have hex : (s.jump_next).execute ⟨0x3000 + x * 256 + kk⟩ =
        some (.ok (if s.regs x = kk then s.jump_next.jump_next else s.jump_next)) := by
      simp only [Emu.execute, hdec, hkk2, Emu.jump_next]
      norm_num
    have hword : ((0x30 + x : Nat) <<< 8) ||| (kk) = 0x3000 + x * 256 + kk := by
      rw [word_eq _ _ (by omega)]
      ring
    have hstep : s.step =
        some (.ok {(if s.regs x = kk then s.jump_next.jump_next else s.jump_next) with
          steps := (if s.regs x = kk then s.jump_next.jump_next else s.jump_next).steps + 1}) := by
      rw [step_eq_execute, hb, hl, hword, hex]
    have hok : stepOk s = {(if s.regs x = kk then s.jump_next.jump_next else s.jump_next) with
        steps := (if s.regs x = kk then s.jump_next.jump_next else s.jump_next).steps + 1} := by
      simp [stepOk, hstep]
    constructor
    · rw [hstep, hok]
    · rw [hok]
      by_cases hc : s.regs x = kk
      · rw [if_pos hc, if_pos hc]
        show ((s.pc + 2) % 65536 + 2) % 65536 = s.pc + 4
        rw [Nat.mod_eq_of_lt (by omega), Nat.mod_eq_of_lt (by omega)]
      · rw [if_neg hc, if_neg hc]
        show (s.pc + 2) % 65536 = s.pc + 2
        rw [Nat.mod_eq_of_lt (by omega)]
  · intro hbl
    obtain ⟨hb, hl⟩ := hbl
    have hdec : (Instruction.mk (0x4000 + x * 256 + kk)).decode = (4, x, kk / 16, kk % 16) := by
      rw [decode_eq]
      simp only [Prod.mk.injEq]
      refine ⟨by omega, by omega, by omega, by omega⟩
    have hkk2 : (Instruction.mk (0x4000 + x * 256 + kk)).kk = kk := by rw [kk_eq]; omega
    have hex : (s.jump_next).execute ⟨0x4000 + x * 256 + kk⟩ =
        some (.ok (if s.regs x ≠ kk then s.jump_next.jump_next else s.jump_next)) := by
      simp only [Emu.execute, hdec, hkk2, Emu.jump_next]
      norm_num
    have hword : ((0x40 + x : Nat) <<< 8) ||| (kk) = 0x4000 + x * 256 + kk := by
      rw [word_eq _ _ (by omega)]
      ring
    have hstep : s.step =
        some (.ok {(if s.regs x ≠ kk then s.jump_next.jump_next else s.jump_next) with
          steps := (if s.regs x ≠ kk then s.jump_next.jump_next else s.jump_next).steps + 1}) := by
      rw [step_eq_execute, hb, hl, hword, hex]
    have hok : stepOk s = {(if s.regs x ≠ kk then s.jump_next.jump_next else s.jump_next) with
        steps := (if s.regs x ≠ kk then s.jump_next.jump_next else s.jump_next).steps + 1} := by
      simp [stepOk, hstep]
    constructor
    · rw [hstep, hok]
    · rw [hok]
      by_cases hc : s.regs x ≠ kk
      · rw [if_pos hc, if_pos hc]
        show ((s.pc + 2) % 65536 + 2) % 65536 = s.pc + 4
        rw [Nat.mod_eq_of_lt (by omega), Nat.mod_eq_of_lt (by omega)]
      · rw [if_neg hc, if_neg hc]
        show (s.pc + 2) % 65536 = s.pc + 2
        rw [Nat.mod_eq_of_lt (by omega)]
  · intro hbl
    obtain ⟨hb, hl⟩ := hbl
    have hdec : (Instruction.mk (0x5000 + x * 256 + y * 16)).decode = (5, x, y, 0) := by
      rw [decode_eq]
      simp only [Prod.mk.injEq]
      refine ⟨by omega, by omega, by omega, by omega⟩
    have hex : (s.jump_next).execute ⟨0x5000 + x * 256 + y * 16⟩ =
        some (.ok (if s.regs x = s.regs y then s.jump_next.jump_next else s.jump_next)) := by
      simp only [Emu.execute, hdec, Emu.jump_next]
      norm_num
    have hword : ((0x50 + x : Nat) <<< 8) ||| (y * 16) = 0x5000 + x * 256 + y * 16 := by
      rw [word_eq _ _ (by omega)]
      ring
    have hstep : s.step =
        some (.ok {(if s.regs x = s.regs y then s.jump_next.jump_next else s.jump_next) with
          steps := (if s.regs x = s.regs y then s.jump_next.jump_next else s.jump_next).steps + 1}) := by
      rw [step_eq_execute, hb, hl, hword, hex]
    have hok : stepOk s = {(if s.regs x = s.regs y then s.jump_next.jump_next else s.jump_next) with
        steps := (if s.regs x = s.regs y then s.jump_next.jump_next else s.jump_next).steps + 1} := by
      simp [stepOk, hstep]
    constructor
    · rw [hstep, hok]
    · rw [hok]
      by_cases hc : s.regs x = s.regs y
      · rw [if_pos hc, if_pos hc]
        show ((s.pc + 2) % 65536 + 2) % 65536 = s.pc + 4
        rw [Nat.mod_eq_of_lt (by omega), Nat.mod_eq_of_lt (by omega)]
      · rw [if_neg hc, if_neg hc]
        show (s.pc + 2) % 65536 = s.pc + 2
        rw [Nat.mod_eq_of_lt (by omega)]
  · intro hbl
    obtain ⟨hb, hl⟩ := hbl
    have hdec : (Instruction.mk (0x9000 + x * 256 + y * 16)).decode = (9, x, y, 0) := by
      rw [decode_eq]
      simp only [Prod.mk.injEq]
      refine ⟨by omega, by omega, by omega, by omega⟩
    have hex : (s.jump_next).execute ⟨0x9000 + x * 256 + y * 16⟩ =
        some (.ok (if s.regs x ≠ s.regs y then s.jump_next.jump_next else s.jump_next)) := by
      simp only [Emu.execute, hdec, Emu.jump_next]
      norm_num
    have hword : ((0x90 + x : Nat) <<< 8) ||| (y * 16) = 0x9000 + x * 256 + y * 16 := by
      rw [word_eq _ _ (by omega)]
      ring
    have hstep : s.step =
        some (.ok {(if s.regs x ≠ s.regs y then s.jump_next.jump_next else s.jump_next) with
          steps := (if s.regs x ≠ s.regs y then s.jump_next.jump_next else s.jump_next).steps + 1}) := by
      rw [step_eq_execute, hb, hl, hword, hex]
    have hok : stepOk s = {(if s.regs x ≠ s.regs y then s.jump_next.jump_next else s.jump_next) with
        steps := (if s.regs x ≠ s.regs y then s.jump_next.jump_next else s.jump_next).steps + 1} := by
      simp [stepOk, hstep]
    constructor
    · rw [hstep, hok]
    · rw [hok]
      by_cases hc : s.regs x ≠ s.regs y
      · rw [if_pos hc, if_pos hc]
        show ((s.pc + 2) % 65536 + 2) % 65536 = s.pc + 4
        rw [Nat.mod_eq_of_lt (by omega), Nat.mod_eq_of_lt (by omega)]
      · rw [if_neg hc, if_neg hc]
        show (s.pc + 2) % 65536 = s.pc + 2
        rw [Nat.mod_eq_of_lt (by omega)]

/-- C7 witness: `3000` at `0x200` with `V0 = 0`; the condition holds and the
program counter advances from `0x200` to `0x204`. -/
theorem c7_skip_pc_witness :
    emuC7.step = some (.ok (stepOk emuC7)) ∧ (stepOk emuC7).pc = 0x204 := by
  have h := (c7_skip_pc emuC7 0 0 0 (by decide) (by decide) (by decide) (by decide)
    (by decide)).1 ⟨by decide, by decide⟩
  refine ⟨h.1, ?_⟩
  rw [h.2]
  decide

/-- C5 (confirmed): from any state with stack pointer below 16, executing the
call `2nnn` fetched at the current program counter and then the return `00EE`
fetched at `nnn` restores the exact pre-call program counter — the value
`pc + 2` that fetch had installed when the call executed, which the call saved
on the stack and replaced — and returns the stack pointer to its pre-call
value. -/
theorem c5_call_ret (s : Emu) (nnn : Nat)
    (hn : nnn < 4096) (hsp : s.sp < 16)
    (hpc2 : s.pc % 2 = 0) (hpcb : s.pc + 1 < 4096)
    (hcb : s.ram s.pc = 0x20 + nnn / 256) (hcl : s.ram (s.pc + 1) = nnn % 256)
    (hn2 : nnn % 2 = 0) (hnb : nnn + 1 < 4096)
    (hrb : s.ram nnn = 0x00) (hrl : s.ram (nnn + 1) = 0xEE) :
    s.step = some (.ok (stepOk s)) ∧
    (stepOk s).step = some (.ok (stepOk (stepOk s))) ∧
    (stepOk (stepOk s)).pc = s.fetch.2.pc ∧
    s.fetch.2.pc = s.pc + 2 ∧
    (stepOk (stepOk s)).sp = s.sp := by
  have hdec1 : (Instruction.mk (0x2000 + nnn)).decode = (2, nnn / 256, nnn / 16 % 16, nnn % 16) := by
    rw [decode_eq]
    simp only [Prod.mk.injEq]
    refine ⟨by omega, by omega, by omega, by omega⟩
  have hnnn : (Instruction.mk (0x2000 + nnn)).nnn = nnn := by rw [nnn_eq]; omega
  have hex1 : (s.jump_next).execute ⟨0x2000 + nnn⟩ =
      some (.ok {s with stack := Function.update s.stack s.sp ((s.pc + 2) % 65536),
                        sp := (s.sp + 1) % 256,
                        pc := nnn}) := by
    simp only [Emu.execute, hdec1, hnnn, Emu.jump_next]
    norm_num
  have hword1 : ((0x20 + nnn / 256 : Nat) <<< 8) ||| (nnn % 256) = 0x2000 + nnn := by
    rw [word_eq _ _ (by omega)]
    omega
  have hstep1 : s.step =
      some (.ok {s with stack := Function.update s.stack s.sp ((s.pc + 2) % 65536),
                        sp := (s.sp + 1) % 256,
                        pc := nnn,
                        steps := s.steps + 1}) := by
    rw [step_eq_execute, hcb, hcl, hword1, hex1]
  have stepOk_of : ∀ u v : Emu, u.step = some (.ok v) → stepOk u = v := by
    intro u v h
    simp [stepOk, h]
  have hok1 : stepOk s =
      {s with stack := Function.update s.stack s.sp ((s.pc + 2) % 65536),
              sp := (s.sp + 1) % 256,
              pc := nnn,
              steps := s.steps + 1} :=
    stepOk_of _ _ hstep1
  have hsp1 : (s.sp + 1) % 256 = s.sp + 1 := Nat.mod_eq_of_lt (by omega)
  have hsp2 : (s.sp + 1 + 255) % 256 = s.sp := by omega
  have hpcw : (s.pc + 2) % 65536 = s.pc + 2 := Nat.mod_eq_of_lt (by omega)
  have hdec2 : (Instruction.mk 0xEE).decode = (0, 0, 0xE, 0xE) := by decide
  have hex2 : ∀ t : Emu, t.sp = s.sp + 1 →
      t.stack = Function.update s.stack s.sp ((s.pc + 2) % 65536) →
      t.execute ⟨0xEE⟩ = some (.ok {t with sp := s.sp, pc := s.pc + 2}) := by
    intro t ht1 ht2
    simp only [Emu.execute, hdec2]
    norm_num
    rw [ht1, ht2, hsp2]
    rw [Function.update_same, hpcw]
    exact ⟨rfl, rfl⟩
  have hstep2 : (stepOk s).step =
      some (.ok {s with stack := Function.update s.stack s.sp ((s.pc + 2) % 65536),
                        sp := s.sp,
                        pc := s.pc + 2,
                        steps := s.steps + 2}) := by
    rw [hok1, step_eq_execute]
    have hb2 : ({s with stack := Function.update s.stack s.sp ((s.pc + 2) % 65536),
                        sp := (s.sp + 1) % 256,
                        pc := nnn,
                        steps := s.steps + 1} : Emu).ram = s.ram := rfl
    simp only [hb2]
    show (match ({s with stack := Function.update s.stack s.sp ((s.pc + 2) % 65536),
                         sp := (s.sp + 1) % 256, pc := nnn,
                         steps := s.steps + 1} : Emu).jump_next.execute
            ⟨(s.ram nnn <<< 8) ||| s.ram (nnn + 1)⟩ with
          | none => (none : Option (Except EmuError Emu))
          | some (Except.error e) => some (Except.error e)
          | some (Except.ok s2) => some (Except.ok {s2 with steps := s2.steps + 1})) = _
    rw [hrb, hrl]
    have hword2 : ((0x00 : Nat) <<< 8) ||| 0xEE = 0xEE := by decide
    rw [hword2]
    have h238 := hex2 (({s with stack := Function.update s.stack s.sp ((s.pc + 2) % 65536),
                                sp := (s.sp + 1) % 256, pc := nnn,
                                steps := s.steps + 1} : Emu).jump_next)
      (by simp [Emu.jump_next, hsp1]) rfl
    rw [h238]
    rfl
  have hok2 : stepOk (stepOk s) =
      {s with stack := Function.update s.stack s.sp ((s.pc + 2) % 65536),
              sp := s.sp,
              pc := s.pc + 2,
              steps := s.steps + 2} :=
    stepOk_of _ _ hstep2
  refine ⟨?_, ?_, ?_, ?_, ?_⟩
  · rw [hstep1, hok1]
  · rw [hstep2, hok2]
  · rw [hok2]
    show s.pc + 2 = (s.pc + 2) % 65536
    omega
  · show (s.pc + 2) % 65536 = s.pc + 2
    omega
  · rw [hok2]

/-- C5 witness: call `2300` at `0x200`, return `00EE` at `0x300`; after the
round trip `pc = 0x202` and `sp = 0` as before the call. -/
theorem c5_call_ret_witness :
    emuC5.step = some (.ok (stepOk emuC5)) ∧
    (stepOk emuC5).step = some (.ok (stepOk (stepOk emuC5))) ∧
    (stepOk (stepOk emuC5)).pc = 0x202 ∧
    (stepOk (stepOk emuC5)).sp = 0 := by
  have h := c5_call_ret emuC5 0x300 (by decide) (by decide) (by decide) (by decide)
    (by decide) (by decide) (by decide) (by decide) (by decide) (by decide)
  refine ⟨h.1, h.2.1, ?_, ?_⟩
  · rw [h.2.2.1, h.2.2.2.1]
    rfl
  · rw [h.2.2.2.2]
    rfl

theorem togglesOdd_not_mem (i : Nat) : ∀ l : List Nat, i ∉ l → togglesOdd l i = false := by
  intro l
  induction l with
  | nil => intro hm; rfl
  | cons a t ih =>
    intro hm
    have hia : i ≠ a := fun he => hm (he ▸ List.mem_cons_self a t)
    have hit : i ∉ t := fun he => hm (List.mem_cons_of_mem a he)
    simp only [togglesOdd, if_neg hia]
    exact ih hit

theorem drawList_fst (l : List Nat) :
    ∀ d c i, (drawList l d c).1 i = xor (d i) (togglesOdd l i) := by
  induction l with
  | nil =>
    intro d c i
    simp [drawList, togglesOdd]
  | cons a t ih =>
    intro d c i
    simp only [drawList, togglesOdd]
    rw [ih]
    by_cases hia : i = a
    · subst hia
      rw [Function.update_same, if_pos rfl]
      cases d i <;> cases togglesOdd t i <;> rfl
    · rw [Function.update_noteq hia, if_neg hia]

theorem drawList_fst_not_mem (l : List Nat) (d : Nat → Bool) (c : Bool) (i : Nat)
    (h : i ∉ l) : (drawList l d c).1 i = d i := by
  rw [drawList_fst, togglesOdd_not_mem i l h]
  cases d i <;> rfl

theorem drawList_double (l : List Nat) (d : Nat → Bool) (c c2 : Bool) :
    (drawList l (drawList l d c).1 c2).1 = d := by
  funext i
  rw [drawList_fst, drawList_fst]
  cases d i <;> cases togglesOdd l i <;> rfl

theorem drawList_snd_true (l : List Nat) : ∀ d, (drawList l d true).2 = true := by
  induction l with
  | nil => intro d; rfl
  | cons a t ih =>
    intro d
    simp only [drawList, Bool.true_or]
    exact ih _

theorem drawList_snd_of_mem (l : List Nat) :
    ∀ d c i, i ∈ l → d i = true → (drawList l d c).2 = true := by
  induction l with
  | nil =>
    intro d c i hm
    simp at hm
  | cons a t ih =>
    intro d c i hm hdi
    simp only [drawList]
    by_cases hia : i = a
    · subst hia
      rw [hdi, Bool.or_true]
      exact drawList_snd_true t _
    · have hit : i ∈ t := by
        rcases List.mem_cons.1 hm with he | ht
        · exact absurd he hia
        · exact ht
      refine ih _ (c || d a) i hit ?_
      rw [Function.update_noteq hia]
      exact hdi

/-- C6 (confirmed): executing the same `Dxyn` draw twice in succession, with
the coordinate registers reading the same for both draws (`I`, the RAM and
all registers but `V15` are untouched by a draw), returns the display to its
pre-draw state by XOR self-inverse, and the second draw reports `V15 = 1`
whenever the first draw turned at least one pixel on. -/
theorem c6_draw_twice (s s1 s2 : Emu) (x y n : Nat)
    (hx : x < 16) (hy : y < 16) (hn : n < 16)
    (h1 : s.execute ⟨0xD000 + x * 256 + y * 16 + n⟩ = some (.ok s1))
    (h2 : s1.execute ⟨0xD000 + x * 256 + y * 16 + n⟩ = some (.ok s2))
    (hrx : s1.regs x = s.regs x) (hry : s1.regs y = s.regs y) :
    s2.display = s.display ∧
    ((∃ i, s.display i = false ∧ s1.display i = true) → s2.regs 15 = 1) := by
  have hdec : (Instruction.mk (0xD000 + x * 256 + y * 16 + n)).decode = (13, x, y, n) := by
    rw [decode_eq]
    simp only [Prod.mk.injEq]
    refine ⟨by omega, by omega, by omega, by omega⟩
  have hexec : ∀ t : Emu, t.execute ⟨0xD000 + x * 256 + y * 16 + n⟩ =
      some (.ok {t with
        display := (drawList (spriteIdxs t.ram t.r_i (t.regs x) (t.regs y) n) t.display false).1,
        regs := Function.update t.regs 15
          (if (drawList (spriteIdxs t.ram t.r_i (t.regs x) (t.regs y) n) t.display false).2 then 1 else 0)}) := by
    intro t
    simp only [Emu.execute, hdec]
    norm_num
  have h1' := hexec s
  rw [h1] at h1'
  have hs1 := Except.ok.inj (Option.some.inj h1')
  have h2' := hexec s1
  rw [h2] at h2'
  have hs2 := Except.ok.inj (Option.some.inj h2')
  have hds1 : s1.display =
      (drawList (spriteIdxs s.ram s.r_i (s.regs x) (s.regs y) n) s.display false).1 := by
    rw [hs1]
  have hrs1 : s1.ram = s.ram := by rw [hs1]
  have his1 : s1.r_i = s.r_i := by rw [hs1]
  have hd2 : s2.display =
      (drawList (spriteIdxs s1.ram s1.r_i (s1.regs x) (s1.regs y) n) s1.display false).1 := by
    rw [hs2]
  constructor
  · rw [hd2, hrs1, his1, hrx, hry, hds1]
    exact drawList_double _ _ _ _
  · intro hset
    obtain ⟨i, hfalse, htrue⟩ := hset
    have hmem : i ∈ spriteIdxs s.ram s.r_i (s.regs x) (s.regs y) n := by
      by_contra hnm
      rw [hds1, drawList_fst_not_mem _ _ _ _ hnm, hfalse] at htrue
      cases htrue
    have hcol : (drawList (spriteIdxs s1.ram s1.r_i (s1.regs x) (s1.regs y) n)
        s1.display false).2 = true := by
      rw [hrs1, his1, hrx, hry]
      exact drawList_snd_of_mem _ s1.display false i hmem htrue
    have hregs2 : s2.regs = Function.update s1.regs 15
        (if (drawList (spriteIdxs s1.ram s1.r_i (s1.regs x) (s1.regs y) n)
          s1.display false).2 then 1 else 0) := by
      rw [hs2]
    rw [hregs2, hcol]
    simp

/-- C6 witness: drawing the one-row sprite `0xFF` at `(V0, V1) = (0, 0)`
twice restores the blank display, and the second draw reports a collision. -/
theorem c6_draw_twice_witness :
    (afterExec (afterExec emuC6 ⟨0xD000 + 0 * 256 + 1 * 16 + 1⟩)
      ⟨0xD000 + 0 * 256 + 1 * 16 + 1⟩).display = emuC6.display ∧
    (afterExec (afterExec emuC6 ⟨0xD000 + 0 * 256 + 1 * 16 + 1⟩)
      ⟨0xD000 + 0 * 256 + 1 * 16 + 1⟩).regs 15 = 1 := by
  have h := c6_draw_twice emuC6 (afterExec emuC6 ⟨0xD000 + 0 * 256 + 1 * 16 + 1⟩)
    (afterExec (afterExec emuC6 ⟨0xD000 + 0 * 256 + 1 * 16 + 1⟩)
      ⟨0xD000 + 0 * 256 + 1 * 16 + 1⟩) 0 1 1
    (by decide) (by decide) (by decide) (by rfl) (by rfl) (by decide) (by decide)
  exact ⟨h.1, h.2 ⟨0, by decide, by decide⟩⟩
